import Mathlib

/-!
Verification development for a single-file Python blockchain node
(`blockchain.py`).  The core class `Blockchain` keeps a pending pool of
transactions (`current_transactions`), an append-only list of blocks
(`chain`) and a set of peer addresses (`nodes`).  The definitions below are a
shallow embedding of that class: pure methods become Lean functions, the
mutating methods become explicit state passing on a `Blockchain` structure,
and Python exceptions (IndexError on `chain[0]` / `chain[-1]`, ValueError in
`register_node`) become `Option` results with `none` for the raised case.

External library calls are modelled at their boundary:
  * `hashlib.sha256(...).hexdigest()` is modelled by `digest`, a concrete
    deterministic function producing a 64-character lowercase hex string.
    The specification (section 4.1) states that the exact digest algorithm is
    not load-bearing; only determinism and the output format matter here.
  * `json.dumps(block, sort_keys=True)` is modelled by `blockJson`, which
    produces exactly the canonical serialization Python would produce for a
    block whose fields have the embedded types (keys sorted alphabetically,
    separators ", " and ": ").  Timestamps are modelled as natural numbers
    (JSON integer values); string fields are assumed to need no escaping.
  * `urllib.parse.urlparse` is modelled by `urlparseNetlocPath`, restricted
    to the two components `register_node` reads (netloc and path).
-/

/-- Transaction dictionary built by `new_transaction`:
keys `sender`, `recipient`, `amount`. -/
structure Transaction where
  sender : String
  recipient : String
  amount : Nat
deriving DecidableEq

/-- Block dictionary built by `add_block`: keys `index`, `timestamp`,
`transactions`, `proof`, `previous_hash`.  Timestamps are modelled as
natural numbers. -/
structure Block where
  index : Nat
  timestamp : Nat
  transactions : List Transaction
  proof : Nat
  previous_hash : String
deriving DecidableEq

/-- Canonical JSON text of one transaction, keys sorted alphabetically,
matching `json.dumps(tx, sort_keys=True)`. -/
def txJson (t : Transaction) : String :=
  "\x7b\"amount\": " ++ toString t.amount ++
  ", \"recipient\": \"" ++ t.recipient ++
  "\", \"sender\": \"" ++ t.sender ++ "\"\x7d"

/-- Canonical JSON text of one block, keys sorted alphabetically
(index, previous_hash, proof, timestamp, transactions), matching
`json.dumps(block, sort_keys=True)`. -/
def blockJson (b : Block) : String :=
  "\x7b\"index\": " ++ toString b.index ++
  ", \"previous_hash\": \"" ++ b.previous_hash ++
  "\", \"proof\": " ++ toString b.proof ++
  ", \"timestamp\": " ++ toString b.timestamp ++
  ", \"transactions\": [" ++ String.intercalate ", " (b.transactions.map txJson) ++ "]\x7d"

/-- Modelled from the spec: boundary model of `hashlib.sha256`, whose source
is not part of this repository.  Section 4.1 of the specification says any
deterministic digest with a fixed-length hex output is acceptable and that
the exact algorithm is not load-bearing.  `digestNat` is a deterministic
rolling hash over the characters of the message, reduced modulo 2^256. -/
def digestNat (s : String) : Nat :=
  s.data.foldl (fun h c => (h * 210306068529402873159582967735643700245 + c.toNat) % 2 ^ 256) 7

/-- Lowercase hex digit for a value below 16. -/
def hexChar (n : Nat) : Char :=
  if n < 10 then Char.ofNat (48 + n) else Char.ofNat (87 + n)

/-- Little-endian list of the low `k` hex digits of `h`. -/
def hexDigits : Nat → Nat → List Char
  | 0, _ => []
  | k + 1, h => hexChar (h % 16) :: hexDigits k (h / 16)

/-- Modelled from the spec: the `hexdigest` output format of
`hashlib.sha256` — a 64-character lowercase hex string, most significant
digit first. -/
def digest (s : String) : String :=
  String.mk (hexDigits 64 (digestNat s)).reverse

/-- Embedding of the static method `Blockchain.hash`: the digest of the
canonical JSON serialization of the block. -/
def hash (block : Block) : String :=
  digest (blockJson block)

/-- Default value of the `difficulty` parameter of `Blockchain.validate`. -/
def defaultDifficulty : Nat := 4

/-- Embedding of the static method `Blockchain.validate`: concatenates the
textual forms of `last_proof`, `proof` and `last_hash`, digests the result,
and compares the first `difficulty` characters with a run of zero
characters (`guess_hash[:difficulty] == '0' * difficulty`). -/
def validate (last_proof proof : Nat) (last_hash : String) (difficulty : Nat) : Bool :=
  let guess := toString last_proof ++ toString proof ++ last_hash
  let guess_hash := digest guess
  decide (guess_hash.data.take difficulty = List.replicate difficulty '0')

/-- Pairwise walk of `Blockchain.valid_chain` starting from `last_block`:
for each following block, return false when its `previous_hash` differs
from the digest of the previous block, or when `validate` rejects the
proof pair; otherwise continue. -/
def validFrom (last_block : Block) (rest : List Block) : Bool :=
  match rest with
  | [] => true
  | block :: more =>
    let last_block_hash := hash last_block
    if block.previous_hash = last_block_hash then
      if validate last_block.proof block.proof last_block_hash defaultDifficulty = true then
        validFrom block more
      else false
    else false

/-- Embedding of `Blockchain.valid_chain`.  The method starts with
`last_block = chain[0]`, which raises IndexError on an empty list; that
raised case is `none`. -/
def valid_chain (chain : List Block) : Option Bool :=
  match chain with
  | [] => none
  | last_block :: rest => some (validFrom last_block rest)

/-- Search loop of `Blockchain.proof_of_work` (`proof = 0`, then increment
while `validate` fails), made total with an explicit fuel bound. -/
def proofOfWorkGo (last_proof : Nat) (last_hash : String) : Nat → Nat → Option Nat
  | 0, _ => none
  | fuel + 1, proof =>
    if validate last_proof proof last_hash defaultDifficulty = true then some proof
    else proofOfWorkGo last_proof last_hash fuel (proof + 1)

/-- Embedding of `Blockchain.proof_of_work`: extract `last_proof` and the
digest of `last_block`, then search successive candidates starting at 0.
The Python loop is unbounded; `fuel` bounds the embedded search and `none`
means the bound was reached before a satisfying proof was found. -/
def proof_of_work (fuel : Nat) (last_block : Block) : Option Nat :=
  let last_proof := last_block.proof
  let last_hash := hash last_block
  proofOfWorkGo last_proof last_hash fuel 0

/-- State of one `Blockchain` instance.  The Python `nodes` set is modelled
as a duplicate-free list; `List.insert` gives the set semantics of
`set.add`. -/
structure Blockchain where
  current_transactions : List Transaction
  chain : List Block
  nodes : List String
deriving DecidableEq

/-- Embedding of the property `Blockchain.last_block` (`self.chain[-1]`);
`none` is the IndexError raised on an empty chain. -/
def last_block (bc : Blockchain) : Option Block :=
  bc.chain.getLast?

/-- Embedding of `Blockchain.new_transaction`: append the transaction
dictionary to the pool and return `last_block.index + 1` together with the
new state.  On an empty chain the index access raises (`none`). -/
def new_transaction (bc : Blockchain) (sender recipient : String) (amount : Nat) :
    Option (Nat × Blockchain) :=
  let tx : Transaction := { sender := sender, recipient := recipient, amount := amount }
  let bc' := { bc with current_transactions := bc.current_transactions ++ [tx] }
  match last_block bc' with
  | none => none
  | some b => some (b.index + 1, bc')

/-- Embedding of `Blockchain.add_block`.  The expression
`previous_hash or self.hash(self.chain[-1])` uses Python truthiness: both
`None` and the empty string select the fallback digest of the last chain
element, and that fallback raises IndexError on an empty chain (`none`).
On success the block is built with `index = len(chain) + 1` and the whole
current pool, the pool is reset to `[]`, and the block is appended. -/
def add_block (bc : Blockchain) (proof : Nat) (previous_hash : Option String)
    (timestamp : Nat) : Option (Block × Blockchain) :=
  let resolved : Option String :=
    match previous_hash with
    | some s => if s = "" then (bc.chain.getLast?).map hash else some s
    | none => (bc.chain.getLast?).map hash
  match resolved with
  | none => none
  | some ph =>
    let block : Block :=
      { index := bc.chain.length + 1, timestamp := timestamp,
        transactions := bc.current_transactions, proof := proof, previous_hash := ph }
    some (block, { bc with current_transactions := [], chain := bc.chain ++ [block] })

/-- Genesis block created by `Blockchain.__init__` via
`add_block` with previous hash string secret and proof 42 on the empty
chain, at
construction time `t`. -/
def genesisBlock (t : Nat) : Block :=
  { index := 1, timestamp := t, transactions := [], proof := 42, previous_hash := "secret" }

/-- Embedding of `Blockchain.__init__`: empty pool, empty chain, then the
genesis call of `add_block` with previous hash string secret and proof
42, then an empty
node set.  The genesis call cannot hit the IndexError fallback because
the string `secret` is truthy; the `none` branch is unreachable and
returns the pre-genesis state only for totality. -/
def initBlockchain (t : Nat) : Blockchain :=
  let bc0 : Blockchain := { current_transactions := [], chain := [], nodes := [] }
  match add_block bc0 42 (some "secret") t with
  | some r => r.2
  | none => bc0

/-- Characters allowed inside a URL scheme after its first letter. -/
def isSchemeChar (c : Char) : Bool :=
  c.isAlphanum || c = '+' || c = '-' || c = '.'

/-- Modelled from the spec: scheme-splitting step of
`urllib.parse.urlparse`, whose source is not part of this repository.  If
the text up to the first colon is a well-formed scheme (non-empty, a letter
first, then letters, digits, plus, minus or dot), the scheme and the colon
are removed; otherwise the text is returned unchanged. -/
def removeScheme (s : List Char) : List Char :=
  let pre := s.takeWhile (fun c => c ≠ ':')
  if pre.length < s.length && !pre.isEmpty &&
      (pre.headD ' ').isAlpha && pre.all isSchemeChar then
    s.drop (pre.length + 1)
  else s

/-- Stops netloc at the first slash, query mark or fragment mark. -/
def isNetlocEnd (c : Char) : Bool :=
  c = '/' || c = '?' || c = '#'

/-- Stops path at the first query mark or fragment mark. -/
def isPathEnd (c : Char) : Bool :=
  c = '?' || c = '#'

/-- Modelled from the spec: the `netloc` and `path` components of
`urllib.parse.urlparse(address)`, the only two components `register_node`
reads.  A netloc is present exactly when the remainder after the scheme
starts with two slashes; otherwise the netloc is empty and the remainder
(up to any query or fragment) is the path. -/
def urlparseNetlocPath (address : String) : String × String :=
  let rest := removeScheme address.data
  if rest.take 2 = ['/', '/'] then
    let after := rest.drop 2
    let netloc := after.takeWhile (fun c => !isNetlocEnd c)
    let path := (after.dropWhile (fun c => !isNetlocEnd c)).takeWhile (fun c => !isPathEnd c)
    (String.mk netloc, String.mk path)
  else
    ("", String.mk (rest.takeWhile (fun c => !isPathEnd c)))

/-- Embedding of `Blockchain.register_node`: add the netloc when present,
otherwise the path when non-empty, otherwise raise ValueError (`none`).
Python set insertion is modelled by `List.insert` on the duplicate-free
node list. -/
def register_node (bc : Blockchain) (address : String) : Option Blockchain :=
  let parsed := urlparseNetlocPath address
  if parsed.1 ≠ "" then some { bc with nodes := bc.nodes.insert parsed.1 }
  else if parsed.2 ≠ "" then some { bc with nodes := bc.nodes.insert parsed.2 }
  else none

/-- Loop body of `Blockchain.resolve_conflicts` over the peer responses.
Each list element models one polled node: `none` is a non-200 response
(skipped), `some (length, chain)` is the JSON body of a 200 response.  The
reported `length` field is compared against `max_length` before the chain
is validated (Python short-circuit `and`), and a candidate is accepted
exactly when its reported length is strictly greater and `valid_chain`
returns true.  A `valid_chain` call that raises (empty candidate list)
aborts the whole resolution (`none`). -/
def resolveGo (responses : List (Option (Nat × List Block))) (max_length : Nat)
    (new_chain : Option (List Block)) : Option (Nat × Option (List Block)) :=
  match responses with
  | [] => some (max_length, new_chain)
  | none :: rest => resolveGo rest max_length new_chain
  | some (length, chain) :: rest =>
    if max_length < length then
      match valid_chain chain with
      | none => none
      | some true => resolveGo rest length (some chain)
      | some false => resolveGo rest max_length new_chain
    else resolveGo rest max_length new_chain

/-- Embedding of `Blockchain.resolve_conflicts`.  `max_length` starts at
the length of the local chain and `new_chain` at `None`; after the loop,
`if new_chain:` (Python truthiness, so an empty list would also be
rejected) installs the candidate and returns true, otherwise the method
returns false with the state unchanged. -/
def resolve_conflicts (bc : Blockchain) (responses : List (Option (Nat × List Block))) :
    Option (Bool × Blockchain) :=
  match resolveGo responses bc.chain.length none with
  | none => none
  | some result =>
    match result.2 with
    | some c => if c.isEmpty then some (false, bc) else some (true, { bc with chain := c })
    | none => some (false, bc)

/-- Mutating operations available on a ledger after construction, as used
by the claims about reachable states: transfer submission
(`new_transaction`) and mining (`proof_of_work` plus `add_block`; only the
`add_block` commit changes the state). -/
inductive Op where
  | submit (sender recipient : String) (amount : Nat)
  | mine (proof : Nat) (previous_hash : Option String) (timestamp : Nat)
deriving DecidableEq

/-- Applies one operation to the state, `none` when the underlying method
raises. -/
def applyOp (bc : Blockchain) : Op → Option Blockchain
  | Op.submit sender recipient amount => (new_transaction bc sender recipient amount).map (fun r => r.2)
  | Op.mine proof previous_hash timestamp => (add_block bc proof previous_hash timestamp).map (fun r => r.2)

/-- Applies a sequence of operations left to right. -/
def applyOps (ops : List Op) (bc : Blockchain) : Option Blockchain :=
  match ops with
  | [] => some bc
  | op :: rest =>
    match applyOp bc op with
    | none => none
    | some bc' => applyOps rest bc'

/-- Both checks `valid_chain` performs on one adjacent pair of blocks. -/
def linkOk (prev cur : Block) : Prop :=
  cur.previous_hash = hash prev ∧
  validate prev.proof cur.proof (hash prev) defaultDifficulty = true

instance (prev cur : Block) : Decidable (linkOk prev cur) := by
  unfold linkOk; infer_instance

/-- Replaces only the `previous_hash` field of a block. -/
def setPrevHash (b : Block) (s : String) : Block :=
  { b with previous_hash := s }

set_option maxRecDepth 10000

theorem validFrom_eq_true_iff (rest : List Block) (first : Block) :
    validFrom first rest = true ↔ List.Chain linkOk first rest := by
  induction rest generalizing first with
  | nil => simp [validFrom]
  | cons b bs ih =>
    by_cases h1 : b.previous_hash = hash first
    · by_cases h2 : validate first.proof b.proof (hash first) defaultDifficulty = true
      · simp [validFrom, h1, h2, List.chain_cons, linkOk, ih]
      · simp [validFrom, h1, h2, List.chain_cons, linkOk]
    · simp [validFrom, h1, List.chain_cons, linkOk]

theorem valid_chain_eq_some_true (c : List Block) :
    valid_chain c = some true ↔ c ≠ [] ∧ List.Chain' linkOk c := by
  cases c with
  | nil => simp [valid_chain]
  | cons b bs =>
    have hc : List.Chain' linkOk (b :: bs) ↔ List.Chain linkOk b bs := Iff.rfl
    simp [valid_chain, validFrom_eq_true_iff, hc]

theorem valid_chain_eq_some_false (c : List Block) :
    valid_chain c = some false ↔ c ≠ [] ∧ ¬ List.Chain' linkOk c := by
  cases c with
  | nil => simp [valid_chain]
  | cons b bs =>
    have hc : List.Chain' linkOk (b :: bs) ↔ List.Chain linkOk b bs := Iff.rfl
    have hv := validFrom_eq_true_iff bs b
    constructor
    · intro h
      refine ⟨by simp, ?_⟩
      rw [hc, ← hv]
      simp [valid_chain] at h
      simp [h]
    · rintro ⟨-, h⟩
      rw [hc, ← hv] at h
      simp only [Bool.not_eq_true] at h
      simp [valid_chain, h]

/-- C2 (amended): `valid_chain` walks the candidate chain pairwise from the
first block; it returns true exactly when the chain is non-empty and every
adjacent pair (prev, cur) passes both checks — `cur.previous_hash` equals
the digest of `prev`, and `validate (prev.proof, cur.proof, digest prev)`
holds — and it returns false exactly when the chain is non-empty and some
adjacent pair fails one of the two checks.  On an empty candidate chain
the method does not return false: the access `chain[0]` raises an
IndexError (the `none` case of the embedding). -/
theorem valid_chain_pairwise_spec (chain : List Block) :
    (valid_chain chain = some true ↔ chain ≠ [] ∧ List.Chain' linkOk chain)
    ∧ (valid_chain chain = some false ↔ chain ≠ [] ∧ ¬ List.Chain' linkOk chain)
    ∧ valid_chain [] = none :=
  ⟨valid_chain_eq_some_true chain, valid_chain_eq_some_false chain, rfl⟩

/-- C2 counterexample: on the empty candidate chain, `valid_chain` raises
an IndexError (modelled as `none`) instead of returning false, refuting
the claim that the empty chain yields the return value false. -/
theorem valid_chain_empty_counterexample :
    valid_chain [] = none ∧ valid_chain [] ≠ some false := by
  refine ⟨rfl, by decide⟩

/-- Concrete genesis-shaped block used by several witnesses; at
construction time 2031 the proof-of-work search below it succeeds after
eleven candidates. -/
def wBlock0 : Block := genesisBlock 2031

/-- Concrete successor block of `wBlock0`: its `previous_hash` is the
digest of `wBlock0` and its proof 10 passes `validate` at the default
difficulty, so the two-block chain `[wBlock0, wBlock1]` is valid. -/
def wBlock1 : Block :=
  { index := 2, timestamp := 0, transactions := [], proof := 10,
    previous_hash := hash wBlock0 }

/-- C3 (amended): in any chain accepted by `valid_chain`, overwriting the
`previous_hash` field of any block after the first with a different value
yields a chain that `valid_chain` rejects (returns false).  Mutations of
fields of the final block, arbitrary mutations inside a one-block chain,
and omission of the first or last block can leave the chain accepted,
because `valid_chain` checks only adjacent pairs and never hashes the
final block. -/
theorem tamper_previous_hash_rejected (c : List Block) (i : Nat) (s : String)
    (hi : i + 1 < c.length)
    (hvalid : valid_chain c = some true)
    (hs : s ≠ (c.get ⟨i + 1, hi⟩).previous_hash) :
    valid_chain (c.set (i + 1) (setPrevHash (c.get ⟨i + 1, hi⟩) s)) = some false := by
  obtain ⟨hne, hchain⟩ := (valid_chain_eq_some_true c).mp hvalid
  have hlink := List.chain'_iff_get.mp hchain i (by omega)
  apply (valid_chain_eq_some_false _).mpr
  have hlen : (c.set (i + 1) (setPrevHash (c.get ⟨i + 1, hi⟩) s)).length = c.length := by
    simp
  constructor
  · intro hnil
    rw [← List.length_eq_zero] at hnil
    omega
  · intro hchain'
    have hbad := List.chain'_iff_get.mp hchain' i (by omega)
    have hget1 : (c.set (i + 1) (setPrevHash (c.get ⟨i + 1, hi⟩) s)).get
        ⟨i, by omega⟩ = c.get ⟨i, by omega⟩ := by
      simp [List.getElem_set_ne (by omega : i + 1 ≠ i)]
    have hget2 : (c.set (i + 1) (setPrevHash (c.get ⟨i + 1, hi⟩) s)).get
        ⟨i + 1, by omega⟩ = setPrevHash (c.get ⟨i + 1, hi⟩) s := by
      simp [List.getElem_set_self]
    rw [hget1, hget2] at hbad
    obtain ⟨hhash, -⟩ := hbad
    obtain ⟨hhash0, -⟩ := hlink
    simp only [setPrevHash] at hhash
    exact hs (hhash.trans hhash0.symm)

/-- C3 counterexample: the one-block chain holding the genesis block is
accepted by `valid_chain`, and mutating the `proof` field of that block
(a single-field mutation of a block of a valid chain) yields a chain that
`valid_chain` still accepts, refuting the claim that every single-field
mutation is rejected.  The pairwise walk never inspects the only block of
a one-block chain. -/
theorem tamper_counterexample :
    valid_chain [genesisBlock 0] = some true
    ∧ ({ genesisBlock 0 with proof := 43 } : Block) ≠ genesisBlock 0
    ∧ valid_chain [{ genesisBlock 0 with proof := 43 }] = some true :=
  ⟨rfl, by decide, rfl⟩

/-- Witness for C3: the concrete two-block chain `[wBlock0, wBlock1]` is
accepted by `valid_chain`, and overwriting the `previous_hash` of its
second block with the string "tampered" makes `valid_chain` reject it. -/
theorem tamper_previous_hash_rejected_witness :
    valid_chain [wBlock0, wBlock1] = some true
    ∧ valid_chain ([wBlock0, wBlock1].set 1 (setPrevHash wBlock1 "tampered")) = some false := by
  have h1 : valid_chain [wBlock0, wBlock1] = some true := by decide
  refine ⟨h1, ?_⟩
  exact tamper_previous_hash_rejected [wBlock0, wBlock1] 0 "tampered" (by decide) h1 (by decide)

theorem proofOfWorkGo_spec (last_proof : Nat) (last_hash : String) :
    ∀ fuel start p, proofOfWorkGo last_proof last_hash fuel start = some p →
      start ≤ p ∧ validate last_proof p last_hash defaultDifficulty = true ∧
        ∀ q, start ≤ q → q < p → validate last_proof q last_hash defaultDifficulty = false := by
  intro fuel
  induction fuel with
  | zero => intro start p h; simp [proofOfWorkGo] at h
  | succ n ih =>
    intro start p h
    by_cases hv : validate last_proof start last_hash defaultDifficulty = true
    · simp [proofOfWorkGo, hv] at h
      subst h
      exact ⟨Nat.le_refl _, hv, fun q hq1 hq2 => absurd hq1 (by omega)⟩
    · simp [proofOfWorkGo, hv] at h
      obtain ⟨h1, h2, h3⟩ := ih (start + 1) p h
      refine ⟨by omega, h2, fun q hq1 hq2 => ?_⟩
      rcases Nat.eq_or_lt_of_le hq1 with rfl | hlt
      · simpa using hv
      · exact h3 q (by omega) hq2

/-- C4: when the bounded embedding of the unbounded `proof_of_work` loop
returns a proof, that proof satisfies `validate` against the proof and
digest of the last block at the default difficulty, every smaller
candidate fails `validate` (the search starts at 0 and tries successive
integers, so the result is the smallest satisfying value), and any other
successful run on the same block returns the same proof (the search is
deterministic). -/
theorem proof_of_work_spec (fuel : Nat) (b : Block) (p : Nat)
    (h : proof_of_work fuel b = some p) :
    validate b.proof p (hash b) defaultDifficulty = true
    ∧ (∀ q, q < p → validate b.proof q (hash b) defaultDifficulty = false)
    ∧ ∀ fuel2 p2, proof_of_work fuel2 b = some p2 → p2 = p := by
  obtain ⟨-, h2, h3⟩ := proofOfWorkGo_spec b.proof (hash b) fuel 0 p h
  refine ⟨h2, fun q hq => h3 q (Nat.zero_le q) hq, ?_⟩
  intro fuel2 p2 h'
  obtain ⟨-, h2', h3'⟩ := proofOfWorkGo_spec b.proof (hash b) fuel2 0 p2 h'
  rcases Nat.lt_trichotomy p2 p with hlt | heq | hgt
  · exact absurd h2' (by simp [h3 p2 (Nat.zero_le p2) hlt])
  · exact heq
  · exact absurd h2 (by simp [h3' p (Nat.zero_le p) hgt])

/-- Witness for C4: on the concrete block `wBlock0` the search succeeds
with fuel 11, returning the proof 10, so the conclusions of
`proof_of_work_spec` hold there. -/
theorem proof_of_work_spec_witness :
    validate wBlock0.proof 10 (hash wBlock0) defaultDifficulty = true
    ∧ (∀ q, q < 10 → validate wBlock0.proof q (hash wBlock0) defaultDifficulty = false)
    ∧ ∀ fuel2 p2, proof_of_work fuel2 wBlock0 = some p2 → p2 = 10 :=
  proof_of_work_spec 11 wBlock0 10 (by decide)

theorem hexDigits_length (k : Nat) : ∀ h, (hexDigits k h).length = k := by
  induction k with
  | zero => intro h; rfl
  | succ n ih => intro h; simp [hexDigits, ih]

theorem digest_length (s : String) : (digest s).data.length = 64 := by
  show (hexDigits 64 (digestNat s)).reverse.length = 64
  simp [hexDigits_length]

theorem take_eq_replicate_iff : ∀ (l : List Char) (d : Nat),
    l.take d = List.replicate d '0' ↔ ∀ i, i < d → l.getD i ' ' = '0'
  | _, 0 => by simp
  | [], d + 1 => by
    constructor
    · intro h
      simp [List.replicate_succ] at h
    · intro h
      have h0 := h 0 (by omega)
      simp [List.getD] at h0
  | c :: cs, d + 1 => by
    rw [List.take_succ_cons, List.replicate_succ]
    constructor
    · intro h i hi
      injection h with h1 h2
      cases i with
      | zero => simpa using h1
      | succ j =>
        have := (take_eq_replicate_iff cs d).mp h2
        simpa using this j (by omega)
    · intro h
      have h0 := h 0 (by omega)
      simp only [List.getD_cons_zero] at h0
      have hrest : ∀ i, i < d → cs.getD i ' ' = '0' := by
        intro i hi
        have := h (i + 1) (by omega)
        simpa using this
      rw [h0, (take_eq_replicate_iff cs d).mpr hrest]

/-- C5: `validate` concatenates the textual forms of the previous proof,
the candidate proof and the previous hash, digests the concatenation, and
returns true exactly when each of the first `difficulty` characters of the
hex digest is the zero character (so it returns false whenever the prefix
test fails at the given difficulty); the digest always has 64 characters,
and the default value of the difficulty parameter is 4. -/
theorem validate_spec (lp p : Nat) (lh : String) (d : Nat) :
    (validate lp p lh d = true ↔
      ∀ i, i < d → (digest (toString lp ++ toString p ++ lh)).data.getD i ' ' = '0')
    ∧ (digest (toString lp ++ toString p ++ lh)).data.length = 64
    ∧ defaultDifficulty = 4 := by
  refine ⟨?_, digest_length _, rfl⟩
  unfold validate
  simp only [decide_eq_true_eq]
  exact take_eq_replicate_iff _ d

/-- Value of the block dictionary `add_block` builds, for a resolved
previous-hash string `ph`. -/
def builtBlock (bc : Blockchain) (proof t : Nat) (ph : String) : Block :=
  { index := bc.chain.length + 1, timestamp := t,
    transactions := bc.current_transactions, proof := proof, previous_hash := ph }

/-- C6 (amended): on a state with a non-empty chain, `add_block` appends
exactly one block whose index is `len(chain) + 1`, whose transactions are
the entire pending pool at call time, whose proof and timestamp are the
given ones, and whose `previous_hash` is the given value when that value
is a non-empty string; when the given value is None or the empty string
(both falsy in Python, through `previous_hash or self.hash(...)`) the
digest of the previous last block is used instead.  The pool is left
empty afterwards, unconditionally, the node set is untouched, and the new
block is returned. -/
theorem add_block_spec (bc : Blockchain) (proof : Nat) (previous_hash : Option String)
    (t : Nat) (hne : bc.chain ≠ []) :
    ∃ b bc', add_block bc proof previous_hash t = some (b, bc')
      ∧ b.index = bc.chain.length + 1
      ∧ b.transactions = bc.current_transactions
      ∧ b.proof = proof
      ∧ b.timestamp = t
      ∧ (∀ s, previous_hash = some s → s ≠ "" → b.previous_hash = s)
      ∧ ((previous_hash = none ∨ previous_hash = some "") →
          (bc.chain.getLast?).map hash = some b.previous_hash)
      ∧ bc'.chain = bc.chain ++ [b]
      ∧ bc'.current_transactions = []
      ∧ bc'.nodes = bc.nodes := by
  obtain ⟨L, hL⟩ : ∃ L, bc.chain.getLast? = some L := by
    cases hq : bc.chain.getLast? with
    | none => exact absurd (List.getLast?_eq_none_iff.mp hq) hne
    | some L => exact ⟨L, rfl⟩
  cases previous_hash with
  | none =>
    have hadd : add_block bc proof none t
        = some (builtBlock bc proof t (hash L),
                { bc with
                  current_transactions := [],
                  chain := bc.chain ++ [builtBlock bc proof t (hash L)] }) := by
      simp [add_block, builtBlock, hL]
    refine ⟨_, _, hadd, rfl, rfl, rfl, rfl, ?_, ?_, rfl, rfl, rfl⟩
    · intro s hs; cases hs
    · intro _; simp [hL, builtBlock]
  | some s =>
    by_cases hs : s = ""
    · subst hs
      have hadd : add_block bc proof (some "") t
          = some (builtBlock bc proof t (hash L),
                  { bc with
                    current_transactions := [],
                    chain := bc.chain ++ [builtBlock bc proof t (hash L)] }) := by
        simp [add_block, builtBlock, hL]
      refine ⟨_, _, hadd, rfl, rfl, rfl, rfl, ?_, ?_, rfl, rfl, rfl⟩
      · intro u hu hu'
        cases hu
        exact absurd rfl hu'
      · intro _; simp [hL, builtBlock]
    · have hadd : add_block bc proof (some s) t
          = some (builtBlock bc proof t s,
                  { bc with
                    current_transactions := [],
                    chain := bc.chain ++ [builtBlock bc proof t s] }) := by
        simp [add_block, builtBlock, hs]
      refine ⟨_, _, hadd, rfl, rfl, rfl, rfl, ?_, ?_, rfl, rfl, rfl⟩
      · intro u hu hu'
        cases hu
        rfl
      · rintro (h | h)
        · cases h
        · cases h
          exact absurd rfl hs

/-- C6 counterexample: with a supplied `previous_hash` equal to the empty
string, the mined block does not carry the given value: Python truthiness
selects the fallback, so the block records the digest of the previous
last block (here the genesis block), which is not the empty string.  This
refutes the claim that the block always carries the supplied
`previous_hash`. -/
theorem add_block_empty_string_counterexample :
    (add_block (initBlockchain 0) 7 (some "") 1).map (fun r => r.1.previous_hash)
      = some (hash (genesisBlock 0))
    ∧ hash (genesisBlock 0) ≠ "" := by
  exact ⟨by decide, by decide⟩

/-- Witness for C6: `add_block` applied to the freshly constructed state
with proof 7, no supplied previous hash and timestamp 1 satisfies all the
conclusions of `add_block_spec`. -/
theorem add_block_spec_witness :
    ∃ b bc', add_block (initBlockchain 0) 7 none 1 = some (b, bc')
      ∧ b.index = (initBlockchain 0).chain.length + 1
      ∧ b.transactions = (initBlockchain 0).current_transactions
      ∧ b.proof = 7
      ∧ b.timestamp = 1
      ∧ (∀ s, (none : Option String) = some s → s ≠ "" → b.previous_hash = s)
      ∧ (((none : Option String) = none ∨ (none : Option String) = some "") →
          ((initBlockchain 0).chain.getLast?).map hash = some b.previous_hash)
      ∧ bc'.chain = (initBlockchain 0).chain ++ [b]
      ∧ bc'.current_transactions = []
      ∧ bc'.nodes = (initBlockchain 0).nodes :=
  add_block_spec (initBlockchain 0) 7 none 1 (by decide)

/-- C7 (amended): `register_node` stores the normalized netloc of the
address when the parsed address has one, otherwise stores the path
component when that is non-empty, and raises (`none`) exactly when both
the netloc and the path are empty.  Registration has pure set semantics:
re-registering an already registered address leaves the state unchanged.
The address `http://10.0.0.5:5000` is stored as `10.0.0.5:5000`.  The
string `notaurl`, however, parses with an empty netloc and the non-empty
path `notaurl`, so it is stored rather than rejected. -/
theorem register_node_spec (bc : Blockchain) (address : String) :
    (register_node bc address = none ↔
      (urlparseNetlocPath address).1 = "" ∧ (urlparseNetlocPath address).2 = "")
    ∧ ((urlparseNetlocPath address).1 ≠ "" →
        register_node bc address
          = some { bc with nodes := bc.nodes.insert (urlparseNetlocPath address).1 })
    ∧ ((urlparseNetlocPath address).1 = "" → (urlparseNetlocPath address).2 ≠ "" →
        register_node bc address
          = some { bc with nodes := bc.nodes.insert (urlparseNetlocPath address).2 })
    ∧ (∀ bc', register_node bc address = some bc' → register_node bc' address = some bc')
    ∧ register_node bc "http://10.0.0.5:5000"
        = some { bc with nodes := bc.nodes.insert "10.0.0.5:5000" } := by
  have hurl : urlparseNetlocPath "http://10.0.0.5:5000" = ("10.0.0.5:5000", "") := by decide
  by_cases h1 : (urlparseNetlocPath address).1 = ""
  · by_cases h2 : (urlparseNetlocPath address).2 = ""
    · refine ⟨by simp [register_node, h1, h2], by simp [h1], by simp [h2], ?_, ?_⟩
      · intro bc' hbc'
        simp [register_node, h1, h2] at hbc'
      · simp [register_node, hurl]
    · refine ⟨by simp [register_node, h1, h2], by simp [h1], ?_, ?_, ?_⟩
      · intro _ _
        simp [register_node, h1, h2]
      · intro bc' hbc'
        simp [register_node, h1, h2] at hbc'
        subst hbc'
        simp [register_node, h1, h2,
          List.insert_of_mem (List.mem_insert_self (urlparseNetlocPath address).2 bc.nodes)]
      · simp [register_node, hurl]
  · refine ⟨by simp [register_node, h1], ?_, by simp [h1], ?_, ?_⟩
    · intro _
      simp [register_node, h1]
    · intro bc' hbc'
      simp [register_node, h1] at hbc'
      subst hbc'
      simp [register_node, h1,
        List.insert_of_mem (List.mem_insert_self (urlparseNetlocPath address).1 bc.nodes)]
    · simp [register_node, hurl]

/-- C7 counterexample: registering the address `notaurl` does not raise;
its parsed path component is the non-empty string `notaurl`, which is
stored in the node set, refuting the claim that this address raises an
InvalidAddressError. -/
theorem register_notaurl_counterexample :
    register_node (initBlockchain 0) "notaurl"
      = some { initBlockchain 0 with nodes := ["notaurl"] } := by
  decide

theorem applyOp_preserves_nonempty (bc : Blockchain) (op : Op) (h : bc.chain ≠ []) :
    ∃ bc', applyOp bc op = some bc' ∧ bc'.chain ≠ [] := by
  obtain ⟨L, hL⟩ : ∃ L, bc.chain.getLast? = some L := by
    cases hq : bc.chain.getLast? with
    | none => exact absurd (List.getLast?_eq_none_iff.mp hq) h
    | some L => exact ⟨L, rfl⟩
  cases op with
  | submit sender recipient amount =>
    refine ⟨{ bc with current_transactions := bc.current_transactions ++
        [{ sender := sender, recipient := recipient, amount := amount }] }, ?_, by simpa using h⟩
    simp [applyOp, new_transaction, last_block, hL]
  | mine proof previous_hash t =>
    cases previous_hash with
    | none =>
      refine ⟨{ bc with
        current_transactions := [],
        chain := bc.chain ++ [builtBlock bc proof t (hash L)] }, ?_, by simp⟩
      simp [applyOp, add_block, builtBlock, hL]
    | some s =>
      by_cases hs : s = ""
      · subst hs
        refine ⟨{ bc with
          current_transactions := [],
          chain := bc.chain ++ [builtBlock bc proof t (hash L)] }, ?_, by simp⟩
        simp [applyOp, add_block, builtBlock, hL]
      · refine ⟨{ bc with
          current_transactions := [],
          chain := bc.chain ++ [builtBlock bc proof t s] }, ?_, by simp⟩
        simp [applyOp, add_block, builtBlock, hs]

theorem applyOps_preserves_nonempty (ops : List Op) :
    ∀ bc : Blockchain, bc.chain ≠ [] →
      ∃ bc', applyOps ops bc = some bc' ∧ bc'.chain ≠ [] := by
  induction ops with
  | nil => exact fun bc h => ⟨bc, rfl, h⟩
  | cons op rest ih =>
    intro bc h
    obtain ⟨bc1, h1, h2⟩ := applyOp_preserves_nonempty bc op h
    obtain ⟨bc', h3, h4⟩ := ih bc1 h2
    exact ⟨bc', by simp [applyOps, h1, h3], h4⟩

/-- C8: construction establishes a chain holding exactly the genesis
block, whose index is 1, and from any construction time every state
reachable by a sequence of transfer submissions and minings exists (no
operation raises) and keeps the chain non-empty, so `last_block` never
hits its empty-chain IndexError: that error case is unreachable from a
constructed ledger. -/
theorem init_genesis_spec (t : Nat) (ops : List Op) :
    (initBlockchain t).chain = [genesisBlock t]
    ∧ (genesisBlock t).index = 1
    ∧ ∃ bc, applyOps ops (initBlockchain t) = some bc
        ∧ bc.chain ≠ [] ∧ last_block bc ≠ none := by
  refine ⟨rfl, rfl, ?_⟩
  have hchain : (initBlockchain t).chain = [genesisBlock t] := rfl
  obtain ⟨bc, h1, h2⟩ := applyOps_preserves_nonempty ops (initBlockchain t)
    (by rw [hchain]; simp)
  refine ⟨bc, h1, h2, ?_⟩
  simp only [last_block, ne_eq, List.getLast?_eq_none_iff]
  exact h2

/-- C9: one submission or mining step never rewrites existing blocks: the
chain either stays identical (transfer submission) or grows by exactly
one appended block (mining), and every block already in the chain —
including its recorded transactions — is left exactly as it was. -/
theorem chain_append_only (bc : Blockchain) (op : Op) (bc' : Blockchain)
    (h : applyOp bc op = some bc') :
    (bc'.chain = bc.chain ∨ ∃ b, bc'.chain = bc.chain ++ [b])
    ∧ ∀ (i : Nat) (hi : i < bc.chain.length) (hi' : i < bc'.chain.length),
        bc'.chain.get ⟨i, hi'⟩ = bc.chain.get ⟨i, hi⟩ := by
  have hgrow : bc'.chain = bc.chain ∨ ∃ b, bc'.chain = bc.chain ++ [b] := by
    cases op with
    | submit sender recipient amount =>
      left
      simp only [applyOp, new_transaction, Option.map_eq_some'] at h
      obtain ⟨r, hr, hbc'⟩ := h
      rcases hq : last_block { bc with current_transactions :=
          bc.current_transactions ++ [{ sender := sender, recipient := recipient,
                                        amount := amount }] } with _ | b
      · rw [hq] at hr; cases hr
      · rw [hq] at hr
        cases hr
        subst hbc'
        rfl
    | mine proof previous_hash t =>
      simp only [applyOp, Option.map_eq_some'] at h
      obtain ⟨r, hr, hbc'⟩ := h
      simp only [add_block] at hr
      rcases hq : (match previous_hash with
        | some s => if s = "" then (bc.chain.getLast?).map hash else some s
        | none => (bc.chain.getLast?).map hash) with _ | ph
      · rw [hq] at hr; cases hr
      · rw [hq] at hr
        simp only [Option.some.injEq] at hr
        subst hbc'
        rw [← hr]
        right
        exact ⟨_, rfl⟩
  refine ⟨hgrow, ?_⟩
  intro i hi hi'
  rcases hgrow with heq | ⟨b, hap⟩
  · simp only [List.get_eq_getElem]
    exact List.getElem_of_eq heq hi'
  · simp only [List.get_eq_getElem]
    rw [List.getElem_of_eq hap hi']
    exact List.getElem_append_left hi

/-- State reached from the fresh construction by submitting one transfer;
used by the C9 witness. -/
def submittedState : Blockchain :=
  { current_transactions := [{ sender := "a", recipient := "b", amount := 5 }],
    chain := [genesisBlock 0],
    nodes := [] }

/-- Witness for C9: applying one transfer submission to the freshly
constructed state succeeds, leaves the chain unchanged, and preserves
every existing block. -/
theorem chain_append_only_witness :
    (submittedState.chain = (initBlockchain 0).chain
      ∨ ∃ b, submittedState.chain = (initBlockchain 0).chain ++ [b])
    ∧ ∀ (i : Nat) (hi : i < (initBlockchain 0).chain.length)
        (hi' : i < submittedState.chain.length),
        submittedState.chain.get ⟨i, hi'⟩ = (initBlockchain 0).chain.get ⟨i, hi⟩ :=
  chain_append_only (initBlockchain 0) (Op.submit "a" "b" 5) submittedState rfl

theorem resolveGo_some_stays (responses : List (Option (Nat × List Block))) :
    ∀ (L : Nat) (a : List Block) (out : Nat × Option (List Block)),
      resolveGo responses L (some a) = some out → ∃ c, out.2 = some c := by
  induction responses with
  | nil =>
    intro L a out h
    cases h
    exact ⟨a, rfl⟩
  | cons r rest ih =>
    intro L a out h
    rcases r with _ | ⟨len, ch⟩
    · simp only [resolveGo] at h
      exact ih L a out h
    · simp only [resolveGo] at h
      by_cases hlen : L < len
      · rw [if_pos hlen] at h
        rcases hv : valid_chain ch with _ | b
        · rw [hv] at h; cases h
        · rw [hv] at h
          cases b
          · exact ih L a out h
          · exact ih len ch out h
      · rw [if_neg hlen] at h
        exact ih L a out h

theorem resolveGo_provenance (responses : List (Option (Nat × List Block))) :
    ∀ (L : Nat) (acc : Option (List Block)) (out : Nat × Option (List Block)),
      resolveGo responses L acc = some out →
      ∀ c, out.2 = some c →
        acc = some c ∨
          ∃ len, some (len, c) ∈ responses ∧ L < len ∧ valid_chain c = some true := by
  induction responses with
  | nil =>
    intro L acc out h c hc
    cases h
    exact Or.inl hc
  | cons r rest ih =>
    intro L acc out h c hc
    rcases r with _ | ⟨len, ch⟩
    · simp only [resolveGo] at h
      rcases ih L acc out h c hc with h' | ⟨len, hmem, hlt, hv⟩
      · exact Or.inl h'
      · exact Or.inr ⟨len, List.mem_cons_of_mem _ hmem, hlt, hv⟩
    · simp only [resolveGo] at h
      by_cases hlen : L < len
      · rw [if_pos hlen] at h
        rcases hv : valid_chain ch with _ | b
        · rw [hv] at h; cases h
        · rw [hv] at h
          cases b
          · rcases ih L acc out h c hc with h' | ⟨len', hmem, hlt, hv'⟩
            · exact Or.inl h'
            · exact Or.inr ⟨len', List.mem_cons_of_mem _ hmem, hlt, hv'⟩
          · rcases ih len (some ch) out h c hc with h' | ⟨len', hmem, hlt, hv'⟩
            · cases h'
              exact Or.inr ⟨len, List.mem_cons_self _ _, hlen, hv⟩
            · exact Or.inr ⟨len', List.mem_cons_of_mem _ hmem, by omega, hv'⟩
      · rw [if_neg hlen] at h
        rcases ih L acc out h c hc with h' | ⟨len', hmem, hlt, hv'⟩
        · exact Or.inl h'
        · exact Or.inr ⟨len', List.mem_cons_of_mem _ hmem, hlt, hv'⟩

theorem resolveGo_trigger (responses : List (Option (Nat × List Block))) :
    ∀ (L : Nat) (out : Nat × Option (List Block)),
      resolveGo responses L none = some out →
      ((∃ c, out.2 = some c) ↔
        ∃ len c, some (len, c) ∈ responses ∧ L < len ∧ valid_chain c = some true) := by
  induction responses with
  | nil =>
    intro L out h
    cases h
    simp
  | cons r rest ih =>
    intro L out h
    rcases r with _ | ⟨len, ch⟩
    · simp only [resolveGo] at h
      rw [ih L out h]
      constructor
      · rintro ⟨len, c, hmem, hlt, hv⟩
        exact ⟨len, c, List.mem_cons_of_mem _ hmem, hlt, hv⟩
      · rintro ⟨len, c, hmem, hlt, hv⟩
        rcases List.mem_cons.mp hmem with heq | hmem'
        · cases heq
        · exact ⟨len, c, hmem', hlt, hv⟩
    · simp only [resolveGo] at h
      by_cases hlen : L < len
      · rw [if_pos hlen] at h
        rcases hv : valid_chain ch with _ | b
        · rw [hv] at h; cases h
        · rw [hv] at h
          cases b
          · rw [ih L out h]
            constructor
            · rintro ⟨len', c, hmem, hlt, hv'⟩
              exact ⟨len', c, List.mem_cons_of_mem _ hmem, hlt, hv'⟩
            · rintro ⟨len', c, hmem, hlt, hv'⟩
              rcases List.mem_cons.mp hmem with heq | hmem'
              · simp only [Option.some.injEq, Prod.mk.injEq] at heq
                obtain ⟨rfl, rfl⟩ := heq
                rw [hv] at hv'
                cases hv'
              · exact ⟨len', c, hmem', hlt, hv'⟩
          · constructor
            · intro _
              exact ⟨len, ch, List.mem_cons_self _ _, hlen, hv⟩
            · intro _
              exact resolveGo_some_stays rest len ch out h
      · rw [if_neg hlen] at h
        rw [ih L out h]
        constructor
        · rintro ⟨len', c, hmem, hlt, hv'⟩
          exact ⟨len', c, List.mem_cons_of_mem _ hmem, hlt, hv'⟩
        · rintro ⟨len', c, hmem, hlt, hv'⟩
          rcases List.mem_cons.mp hmem with heq | hmem'
          · simp only [Option.some.injEq, Prod.mk.injEq] at heq
            obtain ⟨rfl, rfl⟩ := heq
            exact absurd hlt hlen
          · exact ⟨len', c, hmem', hlt, hv'⟩

/-- C1: when `resolve_conflicts` terminates normally, it reports true
exactly when some reachable peer response carries a reported length
strictly greater than the local chain length together with a chain that
passes `valid_chain`; when it reports false the local chain is unchanged;
and when it reports true the installed chain is one of those peer chains,
passes `valid_chain`, and was reported with a length strictly above the
local length.  Equal reported lengths and longer-but-invalid chains never
trigger a replacement. -/
theorem resolve_conflicts_spec (bc : Blockchain) (responses : List (Option (Nat × List Block)))
    (replaced : Bool) (bc' : Blockchain)
    (h : resolve_conflicts bc responses = some (replaced, bc')) :
    (replaced = true ↔
      ∃ len c, some (len, c) ∈ responses ∧ bc.chain.length < len ∧ valid_chain c = some true)
    ∧ (replaced = false → bc' = bc)
    ∧ (replaced = true → valid_chain bc'.chain = some true
        ∧ ∃ len, some (len, bc'.chain) ∈ responses ∧ bc.chain.length < len) := by
  rcases hgo : resolveGo responses bc.chain.length none with _ | out
  · simp only [resolve_conflicts, hgo] at h
    cases h
  · have htrig := resolveGo_trigger responses bc.chain.length out hgo
    rcases hout : out.2 with _ | c
    · simp only [resolve_conflicts, hgo, hout, Option.some.injEq, Prod.mk.injEq] at h
      obtain ⟨rfl, rfl⟩ := h
      refine ⟨?_, fun _ => rfl, fun hx => by cases hx⟩
      constructor
      · intro hx; cases hx
      · intro htr
        obtain ⟨c, hc⟩ := htrig.mpr htr
        rw [hout] at hc
        cases hc
    · have hprov := resolveGo_provenance responses bc.chain.length none out hgo c hout
      obtain ⟨len, hmem, hlt, hv⟩ :
          ∃ len, some (len, c) ∈ responses ∧ bc.chain.length < len
            ∧ valid_chain c = some true := by
        rcases hprov with h' | h'
        · cases h'
        · exact h'
      have hcne : c ≠ [] := by
        intro hnil
        rw [hnil] at hv
        cases hv
      have hemp : c.isEmpty = false := by
        rcases c with _ | ⟨b, bs⟩
        · exact absurd rfl hcne
        · rfl
      simp only [resolve_conflicts, hgo, hout, hemp, Bool.false_eq_true, if_false,
        Option.some.injEq, Prod.mk.injEq] at h
      obtain ⟨rfl, rfl⟩ := h
      refine ⟨?_, ?_, ?_⟩
      · constructor
        · intro _
          exact ⟨len, c, hmem, hlt, hv⟩
        · intro _
          rfl
      · intro hx
        cases hx
      · intro _
        exact ⟨hv, len, hmem, hlt⟩

/-- Witness for C1: on the freshly constructed state with an empty list of
peer responses, `resolve_conflicts` succeeds, reports false, and leaves
the state unchanged, so the conclusions of `resolve_conflicts_spec` hold
there. -/
theorem resolve_conflicts_spec_witness :
    ((false = true) ↔
      ∃ len c, some (len, c) ∈ ([] : List (Option (Nat × List Block)))
        ∧ (initBlockchain 0).chain.length < len ∧ valid_chain c = some true)
    ∧ (false = false → initBlockchain 0 = initBlockchain 0)
    ∧ (false = true → valid_chain (initBlockchain 0).chain = some true
        ∧ ∃ len, some (len, (initBlockchain 0).chain) ∈ ([] : List (Option (Nat × List Block)))
            ∧ (initBlockchain 0).chain.length < len) :=
  resolve_conflicts_spec (initBlockchain 0) [] false (initBlockchain 0) rfl

/-- Local two-block chain for the C10 scenario; its blocks need not form a
valid chain, since `resolve_conflicts` never validates the local chain. -/
def localState : Blockchain :=
  { current_transactions := [],
    chain := [{ index := 1, timestamp := 0, transactions := [], proof := 1, previous_hash := "a" },
              { index := 2, timestamp := 0, transactions := [], proof := 2, previous_hash := "b" }],
    nodes := [] }

/-- Single peer block for the C10 scenario; any one-block chain passes
`valid_chain` because the pairwise walk has no pair to check. -/
def peerBlock : Block :=
  { index := 1, timestamp := 7, transactions := [], proof := 3, previous_hash := "c" }

/-- C10: `resolve_conflicts` decides replacement by the reported length
field alone and never counts the fetched blocks: a peer response
reporting length 3 for a valid one-block chain replaces the local
two-block chain — the local chain is swapped for a strictly shorter one
and the method reports true. -/
theorem resolve_trusts_reported_length :
    resolve_conflicts localState [some (3, [peerBlock])]
      = some (true, { localState with chain := [peerBlock] })
    ∧ valid_chain [peerBlock] = some true
    ∧ ([peerBlock] : List Block).length < localState.chain.length
    ∧ localState.chain.length < 3 :=
  ⟨rfl, rfl, by decide, by decide⟩
